import Mathlib

/-!
Verification of the keyframe-spline core (`src/geometry/spline.h`).

Knot times are modelled as rationals: the code stores `float` keys, and every
behavior under scrutiny depends only on the ordered-field structure of the
time axis.  `std::map<float, T>` is modelled as an association list of
(time, value) pairs kept in strictly increasing time order (`sortedKeys`);
the operations below transcribe the member functions of `Spline<T>`,
`Spline<Quat>` and `Spline<bool>`, whose storage code is identical.

`Quat` and `slerp` live in `lib/mathlib.h`, which is not among the sources,
so the rotation value type, its default value (`Quat()`), and the spherical
interpolation function are abstracted as parameters.
-/

namespace Spline

variable {α : Type}

/-- The `std::map` invariant: knot keys strictly increase along the list. -/
def sortedKeys : List (ℚ × α) → Bool
  | [] => true
  | [_] => true
  | a :: b :: rest => decide (a.1 < b.1) && sortedKeys (b :: rest)

/-- `Spline::set` (`control_points[time] = value`): ordered insert-or-overwrite,
the effect of `std::map::operator[]` plus assignment. -/
def set (time : ℚ) (value : α) : List (ℚ × α) → List (ℚ × α)
  | [] => [(time, value)]
  | (t', v') :: rest =>
    if time < t' then (time, value) :: (t', v') :: rest
    else if time = t' then (time, value) :: rest
    else (t', v') :: set time value rest

/-- `Spline::erase` (`control_points.erase(time)`): exact-key removal. -/
def erase (time : ℚ) (l : List (ℚ × α)) : List (ℚ × α) :=
  l.filter (fun e => decide (e.1 ≠ time))

/-- `Spline::has` (`control_points.count(t)` used as a boolean). -/
def has (t : ℚ) (l : List (ℚ × α)) : Bool :=
  l.any (fun e => decide (e.1 = t))

/-- `Spline::any` (`!control_points.empty()`). -/
def anyKnot (l : List (ℚ × α)) : Bool :=
  !l.isEmpty

/-- `Spline::clear` (`control_points.clear()`). -/
def clear (_l : List (ℚ × α)) : List (ℚ × α) :=
  []

/-- `Spline::crop`: `lower_bound(t)` then erase to the end, i.e. every knot
with time `≥ t` is dropped; on the sorted list this keeps the longest prefix
of knots with time `< t`. -/
def crop (t : ℚ) (l : List (ℚ × α)) : List (ℚ × α) :=
  l.takeWhile (fun e => decide (e.1 < t))

/-- `Spline::keys`: the set of knot times. -/
def keys (l : List (ℚ × α)) : Finset ℚ :=
  (l.map Prod.fst).toFinset

/-- Value stored at exactly a given time, when present (the observable view
of `control_points.find(t)`). -/
def valueAt (t : ℚ) : List (ℚ × α) → Option α
  | [] => none
  | (t', v) :: rest => if t = t' then some v else valueAt t rest

/-- The ordered search inside `at`: `k2 = upper_bound(time)` together with
`k1 = prev(k2)`.  `Sum.inl k` is the `k2 == end()` case (`k` is then
`prev(end())`, the last knot); `Sum.inr (k1, k2)` is the bracketing pair.
The scan starts from the first knot, which the callers have already
compared against `time`. -/
def findBracket (time : ℚ) : (ℚ × α) → List (ℚ × α) → ((ℚ × α) ⊕ ((ℚ × α) × (ℚ × α)))
  | k1, [] => Sum.inl k1
  | k1, k :: rest => if time < k.1 then Sum.inr (k1, k) else findBracket time k rest

/-- `Spline<Quat>::at` (spline.h:109-118).  `dflt` stands for `Quat()` and
`slerp` for the spherical interpolation from `lib/mathlib.h`, neither of
which is among the sources. -/
def quatAt (dflt : α) (slerp : α → α → ℚ → α) : List (ℚ × α) → ℚ → α
  | [], _ => dflt
  | [(_, v0)], _ => v0
  | (t0, v0) :: k :: rest, time =>
    if t0 > time then v0
    else
      match findBracket time (t0, v0) (k :: rest) with
      | Sum.inl klast => klast.2
      | Sum.inr (k1, k2) => slerp k1.2 k2.2 ((time - k1.1) / (k2.1 - k1.1))

/-- `Spline<bool>::at` (spline.h:153-160): identical search, but the result
is `prev(k2)->second`, the earlier knot of the bracket. -/
def boolAt : List (ℚ × Bool) → ℚ → Bool
  | [], _ => false
  | [(_, v0)], _ => v0
  | (t0, v0) :: k :: rest, time =>
    if t0 > time then v0
    else
      match findBracket time (t0, v0) (k :: rest) with
      | Sum.inl klast => klast.2
      | Sum.inr (k1, _) => k1.2

/-- Modelled from the spec: the generic (default) policy `Spline<T>::at` is
only declared in the source header — its definition and `cubic_unit_spline`
are not among the sources.  The spec fixes its boundary behavior (zero
knots → default, one knot → that value, hold-first for times ≤ the smallest
knot time, hold-last for times ≥ the largest); the interior cubic
interpolation is abstracted as the parameter `interior`. -/
def genericAt (dflt : α) (interior : List (ℚ × α) → ℚ → α) : List (ℚ × α) → ℚ → α
  | [], _ => dflt
  | [(_, v0)], _ => v0
  | (t0, v0) :: k :: rest, time =>
    if time ≤ t0 then v0
    else if ((k :: rest).getLast (List.cons_ne_nil _ _)).1 ≤ time then
      ((k :: rest).getLast (List.cons_ne_nil _ _)).2
    else interior ((t0, v0) :: k :: rest) time

end Spline

namespace Spline

variable {α : Type}

/-- `sortedKeys` bundles the strict pairwise ordering of the knot keys. -/
lemma sorted_pairwise : ∀ {l : List (ℚ × α)}, sortedKeys l = true →
    l.Pairwise (fun a b => a.1 < b.1) := by
  intro l
  induction l with
  | nil => intro _; simp
  | cons a l ih =>
    cases l with
    | nil => intro _; simp
    | cons b rest =>
      intro h
      rw [sortedKeys] at h
      simp only [Bool.and_eq_true, decide_eq_true_eq] at h
      have hp := ih h.2
      refine List.Pairwise.cons ?_ hp
      intro x hx
      rcases List.mem_cons.mp hx with rfl | hx
      · exact h.1
      · exact h.1.trans (List.rel_of_pairwise_cons hp hx)

/-- Converse of `sorted_pairwise`. -/
lemma pairwise_sorted : ∀ {l : List (ℚ × α)},
    l.Pairwise (fun a b => a.1 < b.1) → sortedKeys l = true := by
  intro l
  induction l with
  | nil => intro _; rfl
  | cons a l ih =>
    cases l with
    | nil => intro _; rfl
    | cons b rest =>
      intro h
      rw [sortedKeys]
      rcases List.pairwise_cons.mp h with ⟨ha, hp⟩
      simp only [Bool.and_eq_true, decide_eq_true_eq]
      exact ⟨ha b (List.mem_cons_self _ _), ih hp⟩

/-- In a sorted knot list, a key determines its value. -/
lemma keyUnique : ∀ {l : List (ℚ × α)}, l.Pairwise (fun a b => a.1 < b.1) →
    ∀ {t : ℚ} {v w : α}, (t, v) ∈ l → (t, w) ∈ l → v = w := by
  intro l
  induction l with
  | nil => intro _ _ _ _ hv; cases hv
  | cons a l ih =>
    intro hp t v w hv hw
    rcases List.pairwise_cons.mp hp with ⟨ha, hp'⟩
    rcases List.mem_cons.mp hv with hv1 | hv1
    · subst hv1
      rcases List.mem_cons.mp hw with hw1 | hw1
      · exact ((Prod.ext_iff.mp hw1).2).symm
      · simpa using ha _ hw1
    · rcases List.mem_cons.mp hw with hw1 | hw1
      · subst hw1
        simpa using ha _ hv1
      · exact ih hp' hv1 hw1

/-- Every knot's time is at most the last knot's time. -/
lemma le_getLast : ∀ {l : List (ℚ × α)} (h : l ≠ []),
    l.Pairwise (fun a b => a.1 < b.1) →
    ∀ x ∈ l, x.1 ≤ (l.getLast h).1 := by
  intro l
  induction l with
  | nil => intro h; exact absurd rfl h
  | cons a l ih =>
    intro _ hp x hx
    cases l with
    | nil =>
      rcases List.mem_cons.mp hx with rfl | hx
      · simp
      · cases hx
    | cons b rest =>
      rw [List.getLast_cons (List.cons_ne_nil _ _)]
      rcases List.pairwise_cons.mp hp with ⟨ha, hp'⟩
      rcases List.mem_cons.mp hx with rfl | hx
      · exact le_of_lt (lt_of_lt_of_le (ha b (List.mem_cons_self _ _))
          (ih (List.cons_ne_nil _ _) hp' b (List.mem_cons_self _ _)))
      · exact ih (List.cons_ne_nil _ _) hp' x hx

/-- When every scanned key is at most `time`, the search runs off the end
(`upper_bound == end()`) and the callers fall back to the last knot. -/
lemma findBracket_inl (time : ℚ) : ∀ (k1 : ℚ × α) (ks : List (ℚ × α)),
    (∀ k ∈ ks, k.1 ≤ time) →
    findBracket time k1 ks = Sum.inl ((k1 :: ks).getLast (List.cons_ne_nil _ _)) := by
  intro k1 ks
  induction ks generalizing k1 with
  | nil => intro _; simp [findBracket]
  | cons k rest ih =>
    intro h
    rw [findBracket, if_neg (not_lt.mpr (h k (List.mem_cons_self _ _))),
      ih k (fun x hx => h x (List.mem_cons_of_mem _ hx)),
      List.getLast_cons (List.cons_ne_nil _ _)]

/-- When some scanned key exceeds `time`, the search returns the adjacent
bracketing pair around `time`; the earlier knot of the pair carries the
greatest key that is still at most `time`. -/
lemma findBracket_inr (time : ℚ) : ∀ (k1 : ℚ × α) (ks : List (ℚ × α)),
    (k1 :: ks).Pairwise (fun a b => a.1 < b.1) → k1.1 ≤ time →
    (∃ k ∈ ks, time < k.1) →
    ∃ pre a b post, k1 :: ks = pre ++ a :: b :: post
      ∧ findBracket time k1 ks = Sum.inr (a, b)
      ∧ a.1 ≤ time ∧ time < b.1
      ∧ ∀ k ∈ k1 :: ks, k.1 ≤ time → k.1 ≤ a.1 := by
  intro k1 ks
  induction ks generalizing k1 with
  | nil => rintro _ _ ⟨k, hk, _⟩; cases hk
  | cons k rest ih =>
    intro hp h1 hex
    rcases List.pairwise_cons.mp hp with ⟨ha, hp'⟩
    by_cases hk : time < k.1
    · refine ⟨[], k1, k, rest, rfl, ?_, h1, hk, ?_⟩
      · rw [findBracket, if_pos hk]
      · intro x hx hxle
        rcases List.mem_cons.mp hx with rfl | hx
        · exact le_refl _
        · rcases List.mem_cons.mp hx with rfl | hx
          · exact absurd hxle (not_le.mpr hk)
          · exact absurd hxle (not_le.mpr (hk.trans (List.rel_of_pairwise_cons hp' hx)))
    · have hk' : k.1 ≤ time := not_lt.mp hk
      have hex' : ∃ x ∈ rest, time < x.1 := by
        rcases hex with ⟨x, hx, hxt⟩
        rcases List.mem_cons.mp hx with rfl | hx
        · exact absurd hk' (not_le.mpr hxt)
        · exact ⟨x, hx, hxt⟩
      rcases ih k hp' hk' hex' with ⟨pre, a, b, post, heq, hfb, hat, hbt, hmax⟩
      refine ⟨k1 :: pre, a, b, post, by rw [List.cons_append, ← heq], ?_, hat, hbt, ?_⟩
      · rw [findBracket, if_neg hk, hfb]
      · intro x hx hxle
        rcases List.mem_cons.mp hx with rfl | hx
        · exact le_trans (le_of_lt (ha k (List.mem_cons_self _ _)))
            (hmax k (List.mem_cons_self _ _) hk')
        · exact hmax x hx hxle

/-- Membership characterization of `keys`. -/
lemma mem_keys {x : ℚ} {l : List (ℚ × α)} : x ∈ keys l ↔ ∃ e ∈ l, e.1 = x := by
  simp [keys, List.mem_map]

/-- The knot written by `set` is present afterwards. -/
lemma mem_set_self (t : ℚ) (v : α) : ∀ l : List (ℚ × α), (t, v) ∈ set t v l := by
  intro l
  induction l with
  | nil => simp [set]
  | cons e rest ih =>
    obtain ⟨t', v'⟩ := e
    by_cases h1 : t < t'
    · simp [set, h1]
    · by_cases h2 : t = t'
      · simp [set, h1, h2]
      · simp only [set, if_neg h1, if_neg h2]
        exact List.mem_cons_of_mem _ ih

/-- `set` adds no knot other than the written one. -/
lemma mem_set {x : ℚ × α} {t : ℚ} {v : α} : ∀ {l : List (ℚ × α)},
    x ∈ set t v l → x = (t, v) ∨ x ∈ l := by
  intro l
  induction l with
  | nil => intro hx; simpa [set] using hx
  | cons e rest ih =>
    obtain ⟨t', v'⟩ := e
    intro hx
    by_cases h1 : t < t'
    · simp only [set, if_pos h1] at hx
      rcases List.mem_cons.mp hx with h | h
      · exact Or.inl h
      · exact Or.inr h
    · by_cases h2 : t = t'
      · simp only [set, if_neg h1, if_pos h2] at hx
        rcases List.mem_cons.mp hx with h | h
        · exact Or.inl h
        · exact Or.inr (List.mem_cons_of_mem _ h)
      · simp only [set, if_neg h1, if_neg h2] at hx
        rcases List.mem_cons.mp hx with h | h
        · exact Or.inr (h ▸ List.mem_cons_self _ _)
        · rcases ih h with h' | h'
          · exact Or.inl h'
          · exact Or.inr (List.mem_cons_of_mem _ h')

/-- A knot whose time differs from the written time survives `set`. -/
lemma mem_set_of_ne {e : ℚ × α} {t : ℚ} {v : α} : ∀ {l : List (ℚ × α)},
    e ∈ l → e.1 ≠ t → e ∈ set t v l := by
  intro l
  induction l with
  | nil => intro he; cases he
  | cons e' rest ih =>
    obtain ⟨t', v'⟩ := e'
    intro he hne
    by_cases h1 : t < t'
    · simp only [set, if_pos h1]
      exact List.mem_cons_of_mem _ he
    · by_cases h2 : t = t'
      · simp only [set, if_neg h1, if_pos h2]
        rcases List.mem_cons.mp he with h | h
        · exact absurd (by rw [h, ← h2]) hne
        · exact List.mem_cons_of_mem _ h
      · simp only [set, if_neg h1, if_neg h2]
        rcases List.mem_cons.mp he with h | h
        · exact h ▸ List.mem_cons_self _ _
        · exact List.mem_cons_of_mem _ (ih h hne)

/-- `set` preserves the ordering invariant. -/
lemma set_pairwise {t : ℚ} {v : α} : ∀ {l : List (ℚ × α)},
    l.Pairwise (fun a b => a.1 < b.1) →
    (set t v l).Pairwise (fun a b => a.1 < b.1) := by
  intro l
  induction l with
  | nil => intro _; simp [set]
  | cons e rest ih =>
    obtain ⟨t', v'⟩ := e
    intro hp
    rcases List.pairwise_cons.mp hp with ⟨ha, hp'⟩
    by_cases h1 : t < t'
    · simp only [set, if_pos h1]
      refine List.Pairwise.cons ?_ hp
      intro x hx
      rcases List.mem_cons.mp hx with rfl | hx
      · exact h1
      · exact h1.trans (ha x hx)
    · by_cases h2 : t = t'
      · simp only [set, if_neg h1, if_pos h2]
        exact List.Pairwise.cons (fun x hx => h2 ▸ ha x hx) hp'
      · simp only [set, if_neg h1, if_neg h2]
        refine List.Pairwise.cons ?_ (ih hp')
        intro x hx
        rcases mem_set hx with rfl | hx
        · exact lt_of_le_of_ne (not_lt.mp h1) (Ne.symm h2)
        · exact ha x hx

/-- Keys after `set`: the written time is inserted. -/
lemma keys_set (t : ℚ) (v : α) (l : List (ℚ × α)) :
    keys (set t v l) = insert t (keys l) := by
  ext x
  simp only [mem_keys, Finset.mem_insert]
  constructor
  · rintro ⟨e, he, rfl⟩
    rcases mem_set he with rfl | he
    · exact Or.inl rfl
    · exact Or.inr ⟨e, he, rfl⟩
  · intro h
    rcases h with h | ⟨e, he, hfst⟩
    · exact ⟨(t, v), mem_set_self t v l, h.symm⟩
    · by_cases hx : e.1 = t
      · exact ⟨(t, v), mem_set_self t v l, hx.symm.trans hfst⟩
      · exact ⟨e, mem_set_of_ne he hx, hfst⟩

/-- The value observable at the written time is the written value. -/
lemma valueAt_set (t : ℚ) (v : α) : ∀ l : List (ℚ × α),
    valueAt t (set t v l) = some v := by
  intro l
  induction l with
  | nil => simp [set, valueAt]
  | cons e rest ih =>
    obtain ⟨t', v'⟩ := e
    by_cases h1 : t < t'
    · simp [set, if_pos h1, valueAt]
    · by_cases h2 : t = t'
      · simp [set, if_neg h1, if_pos h2, valueAt]
      · simp only [set, if_neg h1, if_neg h2, valueAt, if_neg h2]
        exact ih

/-- Last write wins: writing twice at the same time is writing once. -/
lemma set_set (t : ℚ) (v1 v2 : α) : ∀ l : List (ℚ × α),
    set t v2 (set t v1 l) = set t v2 l := by
  intro l
  induction l with
  | nil => simp [set]
  | cons e rest ih =>
    obtain ⟨t', v'⟩ := e
    by_cases h1 : t < t'
    · simp [set, if_pos h1, lt_irrefl]
    · by_cases h2 : t = t'
      · simp [set, if_neg h1, if_pos h2, lt_irrefl]
      · simp only [set, if_neg h1, if_neg h2]
        rw [ih]

/-- Boolean membership characterization of `has`. -/
lemma has_iff {t : ℚ} {l : List (ℚ × α)} : has t l = true ↔ ∃ e ∈ l, e.1 = t := by
  simp [has, List.any_eq_true]

/-- Erasing an absent time is a no-op. -/
lemma erase_of_not_has {t : ℚ} {l : List (ℚ × α)} (h : has t l = false) :
    erase t l = l := by
  refine List.filter_eq_self.mpr ?_
  intro e he
  have : ¬ e.1 = t := by
    intro heq
    rw [← Bool.not_eq_true, has_iff] at h
    exact h ⟨e, he, heq⟩
  simpa using this

/-- After `erase t`, no knot remains at time `t`. -/
lemma has_erase (t : ℚ) (l : List (ℚ × α)) : has t (erase t l) = false := by
  rw [← Bool.not_eq_true, has_iff]
  rintro ⟨e, he, heq⟩
  rcases List.mem_filter.mp he with ⟨_, hd⟩
  simp only [decide_eq_true_eq] at hd
  exact hd heq

/-- `erase` does not disturb values stored at other times. -/
lemma valueAt_erase_ne {s t : ℚ} (hst : s ≠ t) : ∀ l : List (ℚ × α),
    valueAt s (erase t l) = valueAt s l := by
  intro l
  induction l with
  | nil => rfl
  | cons e rest ih =>
    obtain ⟨t', v'⟩ := e
    by_cases h1 : t' = t
    · have : erase t ((t', v') :: rest) = erase t rest := by
        simp [erase, h1]
      rw [this, ih, valueAt, if_neg (h1 ▸ hst)]
    · have : erase t ((t', v') :: rest) = (t', v') :: erase t rest := by
        simp [erase, h1]
      rw [this, valueAt, valueAt]
      by_cases h2 : s = t'
      · simp [h2]
      · simp only [if_neg h2]
        exact ih

/-- Keys after `erase`: exactly the erased time is removed. -/
lemma keys_erase (t : ℚ) (l : List (ℚ × α)) :
    keys (erase t l) = (keys l).erase t := by
  ext x
  simp only [mem_keys, Finset.mem_erase, erase, List.mem_filter, decide_eq_true_eq]
  constructor
  · rintro ⟨e, ⟨he, hne⟩, rfl⟩
    exact ⟨hne, e, he, rfl⟩
  · rintro ⟨hne, e, he, rfl⟩
    exact ⟨e, ⟨he, hne⟩, rfl⟩

/-- On a sorted list, `crop` (a prefix cut at `lower_bound`) is a filter. -/
lemma crop_eq_filter {t : ℚ} : ∀ {l : List (ℚ × α)},
    l.Pairwise (fun a b => a.1 < b.1) →
    crop t l = l.filter (fun e => decide (e.1 < t)) := by
  intro l
  induction l with
  | nil => intro _; rfl
  | cons e rest ih =>
    intro hp
    rcases List.pairwise_cons.mp hp with ⟨ha, hp'⟩
    by_cases h1 : e.1 < t
    · rw [crop, List.takeWhile_cons, if_pos (by simpa using h1)]
      rw [List.filter_cons_of_pos (by simpa using h1)]
      rw [← crop, ih hp']
    · rw [crop, List.takeWhile_cons, if_neg (by simpa using h1)]
      rw [List.filter_cons_of_neg (by simpa using h1)]
      refine (List.filter_eq_nil_iff.mpr ?_).symm
      intro x hx
      simp only [decide_eq_true_eq]
      exact fun hlt => h1 (lt_trans (ha x hx) hlt)

/-- Keys after `crop`: exactly the strictly earlier keys survive. -/
lemma keys_crop {t : ℚ} {l : List (ℚ × α)} (hs : sortedKeys l = true) :
    keys (crop t l) = (keys l).filter (· < t) := by
  rw [crop_eq_filter (sorted_pairwise hs)]
  ext x
  simp only [mem_keys, Finset.mem_filter, List.mem_filter, decide_eq_true_eq]
  constructor
  · rintro ⟨e, ⟨he, hlt⟩, rfl⟩
    exact ⟨⟨e, he, rfl⟩, hlt⟩
  · rintro ⟨⟨e, he, rfl⟩, hlt⟩
    exact ⟨e, ⟨he, hlt⟩, rfl⟩

/-- Cropping at or below the smallest key empties the spline. -/
lemma crop_nil_of_le_head {t : ℚ} {hd : ℚ × α} {tl : List (ℚ × α)}
    (h : t ≤ hd.1) : crop t (hd :: tl) = [] := by
  rw [crop, List.takeWhile_cons, if_neg (by simpa using not_lt.mpr h)]

/-- Cropping strictly above the largest key is a no-op. -/
lemma crop_self_of_getLast_lt {t : ℚ} {l : List (ℚ × α)} (hne : l ≠ [])
    (hs : sortedKeys l = true) (h : (l.getLast hne).1 < t) : crop t l = l := by
  refine List.takeWhile_eq_self_iff.mpr ?_
  intro x hx
  simpa using lt_of_le_of_lt (le_getLast hne (sorted_pairwise hs) x hx) h

/-- The head key is minimal in a sorted list. -/
lemma head_le_of_mem {hd : ℚ × α} {tl : List (ℚ × α)}
    (hp : (hd :: tl).Pairwise (fun a b => a.1 < b.1)) {x : ℚ × α}
    (hx : x ∈ hd :: tl) : hd.1 ≤ x.1 := by
  rcases List.mem_cons.mp hx with rfl | hx
  · exact le_refl _
  · exact le_of_lt (List.rel_of_pairwise_cons hp hx)

/-- `Spline<Quat>::at` holds the first knot for query times at or before the
smallest knot time (at the knot itself the bracket degenerates to `u = 0`). -/
lemma quatAt_hold_first (dflt : α) (slerp : α → α → ℚ → α)
    (hslerp : ∀ a b, slerp a b 0 = a) {hd : ℚ × α} {tl : List (ℚ × α)}
    (hs : sortedKeys (hd :: tl) = true) {t : ℚ} (ht : t ≤ hd.1) :
    quatAt dflt slerp (hd :: tl) t = hd.2 := by
  obtain ⟨t0, v0⟩ := hd
  cases tl with
  | nil => rfl
  | cons k rest =>
    by_cases hlt : t < t0
    · rw [quatAt, if_pos hlt]
    · have heq : t = t0 := le_antisymm ht (not_lt.mp hlt)
      subst heq
      have hp := sorted_pairwise hs
      have hk : (t : ℚ) < k.1 := List.rel_of_pairwise_cons hp (List.mem_cons_self _ _)
      rw [quatAt, if_neg hlt, findBracket, if_pos hk]
      show slerp v0 k.2 ((t - t) / (k.1 - t)) = v0
      rw [sub_self, zero_div, hslerp]

/-- `Spline<Quat>::at` holds the last knot for query times at or after the
largest knot time. -/
lemma quatAt_hold_last (dflt : α) (slerp : α → α → ℚ → α) {l : List (ℚ × α)}
    (hne : l ≠ []) (hs : sortedKeys l = true) {t : ℚ}
    (ht : (l.getLast hne).1 ≤ t) :
    quatAt dflt slerp l t = (l.getLast hne).2 := by
  cases l with
  | nil => exact absurd rfl hne
  | cons hd tl =>
    obtain ⟨t0, v0⟩ := hd
    cases tl with
    | nil => rfl
    | cons k rest =>
      have hp := sorted_pairwise hs
      have hall : ∀ x ∈ k :: rest, x.1 ≤ t := fun x hx =>
        le_trans (le_getLast hne hp x (List.mem_cons_of_mem _ hx)) ht
      have h0 : (t0 : ℚ) ≤ t :=
        le_trans (le_getLast hne hp _ (List.mem_cons_self _ _)) ht
      rw [quatAt, if_neg (not_lt.mpr h0), findBracket_inl t _ _ hall]

/-- For a query time between the first and last knot times,
`Spline<Quat>::at` spherically interpolates the bracketing adjacent pair
found by the ordered search. -/
lemma quatAt_bracket (dflt : α) (slerp : α → α → ℚ → α) {t0 : ℚ} {v0 : α}
    {k : ℚ × α} {rest : List (ℚ × α)}
    (hs : sortedKeys ((t0, v0) :: k :: rest) = true) {t : ℚ} (h1 : t0 ≤ t)
    (h2 : t < (((t0, v0) :: k :: rest).getLast (List.cons_ne_nil _ _)).1) :
    ∃ pre a b post, (t0, v0) :: k :: rest = pre ++ a :: b :: post
      ∧ a.1 ≤ t ∧ t < b.1
      ∧ (∀ x ∈ (t0, v0) :: k :: rest, x.1 ≤ t → x.1 ≤ a.1)
      ∧ quatAt dflt slerp ((t0, v0) :: k :: rest) t
          = slerp a.2 b.2 ((t - a.1) / (b.1 - a.1)) := by
  have hp := sorted_pairwise hs
  have hex : ∃ x ∈ k :: rest, t < x.1 := by
    refine ⟨((t0, v0) :: k :: rest).getLast (List.cons_ne_nil _ _), ?_, h2⟩
    rw [List.getLast_cons (List.cons_ne_nil _ _)]
    exact List.getLast_mem _
  rcases findBracket_inr t (t0, v0) (k :: rest) hp h1 hex with
    ⟨pre, a, b, post, heq, hfb, hat, hbt, hmax⟩
  refine ⟨pre, a, b, post, heq, hat, hbt, hmax, ?_⟩
  rw [quatAt, if_neg (not_lt.mpr h1), hfb]

/-- `Spline<bool>::at` holds the first knot for query times at or before the
smallest knot time. -/
lemma boolAt_hold_first {hd : ℚ × Bool} {tl : List (ℚ × Bool)}
    (hs : sortedKeys (hd :: tl) = true) {t : ℚ} (ht : t ≤ hd.1) :
    boolAt (hd :: tl) t = hd.2 := by
  obtain ⟨t0, v0⟩ := hd
  cases tl with
  | nil => rfl
  | cons k rest =>
    by_cases hlt : t < t0
    · rw [boolAt, if_pos hlt]
    · have heq : t = t0 := le_antisymm ht (not_lt.mp hlt)
      subst heq
      have hp := sorted_pairwise hs
      have hk : (t : ℚ) < k.1 := List.rel_of_pairwise_cons hp (List.mem_cons_self _ _)
      rw [boolAt, if_neg hlt, findBracket, if_pos hk]

/-- `Spline<bool>::at` holds the last knot for query times at or after the
largest knot time. -/
lemma boolAt_hold_last {l : List (ℚ × Bool)} (hne : l ≠ [])
    (hs : sortedKeys l = true) {t : ℚ} (ht : (l.getLast hne).1 ≤ t) :
    boolAt l t = (l.getLast hne).2 := by
  cases l with
  | nil => exact absurd rfl hne
  | cons hd tl =>
    obtain ⟨t0, v0⟩ := hd
    cases tl with
    | nil => rfl
    | cons k rest =>
      have hp := sorted_pairwise hs
      have hall : ∀ x ∈ k :: rest, x.1 ≤ t := fun x hx =>
        le_trans (le_getLast hne hp x (List.mem_cons_of_mem _ hx)) ht
      have h0 : (t0 : ℚ) ≤ t :=
        le_trans (le_getLast hne hp _ (List.mem_cons_self _ _)) ht
      rw [boolAt, if_neg (not_lt.mpr h0), findBracket_inl t _ _ hall]

/-- For a query time between the first and last knot times,
`Spline<bool>::at` returns the earlier knot of the bracketing pair. -/
lemma boolAt_bracket {t0 : ℚ} {v0 : Bool} {k : ℚ × Bool}
    {rest : List (ℚ × Bool)}
    (hs : sortedKeys ((t0, v0) :: k :: rest) = true) {t : ℚ} (h1 : t0 ≤ t)
    (h2 : t < (((t0, v0) :: k :: rest).getLast (List.cons_ne_nil _ _)).1) :
    ∃ pre a b post, (t0, v0) :: k :: rest = pre ++ a :: b :: post
      ∧ a.1 ≤ t ∧ t < b.1
      ∧ (∀ x ∈ (t0, v0) :: k :: rest, x.1 ≤ t → x.1 ≤ a.1)
      ∧ boolAt ((t0, v0) :: k :: rest) t = a.2 := by
  have hp := sorted_pairwise hs
  have hex : ∃ x ∈ k :: rest, t < x.1 := by
    refine ⟨((t0, v0) :: k :: rest).getLast (List.cons_ne_nil _ _), ?_, h2⟩
    rw [List.getLast_cons (List.cons_ne_nil _ _)]
    exact List.getLast_mem _
  rcases findBracket_inr t (t0, v0) (k :: rest) hp h1 hex with
    ⟨pre, a, b, post, heq, hfb, hat, hbt, hmax⟩
  refine ⟨pre, a, b, post, heq, hat, hbt, hmax, ?_⟩
  rw [boolAt, if_neg (not_lt.mpr h1), hfb]

/-- `Spline<Quat>::at` evaluated exactly at a stored knot time returns the
stored value, provided `slerp` at parameter 0 returns its first endpoint. -/
lemma quatAt_knot (dflt : α) (slerp : α → α → ℚ → α)
    (hslerp : ∀ a b, slerp a b 0 = a) {l : List (ℚ × α)}
    (hs : sortedKeys l = true) {ti : ℚ} {qi : α} (hmem : (ti, qi) ∈ l) :
    quatAt dflt slerp l ti = qi := by
  have hp := sorted_pairwise hs
  have hne : l ≠ [] := by intro h; subst h; cases hmem
  by_cases hlast : (l.getLast hne).1 ≤ ti
  · rw [quatAt_hold_last dflt slerp hne hs hlast]
    have heq : (l.getLast hne).1 = ti :=
      le_antisymm hlast (le_getLast hne hp _ hmem)
    have hmem' : (ti, (l.getLast hne).2) ∈ l := by
      have h := List.getLast_mem hne
      rwa [← heq, Prod.mk.eta]
    exact keyUnique hp hmem' hmem
  · cases l with
    | nil => exact absurd rfl hne
    | cons hd tl =>
      obtain ⟨t0, v0⟩ := hd
      cases tl with
      | nil =>
        rcases List.mem_cons.mp hmem with h | h
        · exact absurd (le_of_eq (congrArg Prod.fst h.symm)) hlast
        · cases h
      | cons k rest =>
        have h1 : t0 ≤ ti := head_le_of_mem hp hmem
        rcases quatAt_bracket dflt slerp hs h1 (not_le.mp hlast) with
          ⟨pre, a, b, post, heq, hat, hbt, hmax, hval⟩
        have hati : a.1 = ti :=
          le_antisymm hat (hmax (ti, qi) hmem (le_refl ti))
        have hamem : a ∈ (t0, v0) :: k :: rest := by
          rw [heq]
          exact List.mem_append_right _ (List.mem_cons_self _ _)
        have hamem' : (ti, a.2) ∈ (t0, v0) :: k :: rest := by
          rwa [← hati, Prod.mk.eta]
        rw [hval, hati, sub_self, zero_div, hslerp]
        exact keyUnique hp hamem' hmem

/-- `Spline<bool>::at` evaluated exactly at a stored knot time returns the
stored value. -/
lemma boolAt_knot {l : List (ℚ × Bool)} (hs : sortedKeys l = true)
    {ti : ℚ} {qi : Bool} (hmem : (ti, qi) ∈ l) : boolAt l ti = qi := by
  have hp := sorted_pairwise hs
  have hne : l ≠ [] := by intro h; subst h; cases hmem
  by_cases hlast : (l.getLast hne).1 ≤ ti
  · rw [boolAt_hold_last hne hs hlast]
    have heq : (l.getLast hne).1 = ti :=
      le_antisymm hlast (le_getLast hne hp _ hmem)
    have hmem' : (ti, (l.getLast hne).2) ∈ l := by
      have h := List.getLast_mem hne
      rwa [← heq, Prod.mk.eta]
    exact keyUnique hp hmem' hmem
  · cases l with
    | nil => exact absurd rfl hne
    | cons hd tl =>
      obtain ⟨t0, v0⟩ := hd
      cases tl with
      | nil =>
        rcases List.mem_cons.mp hmem with h | h
        · exact absurd (le_of_eq (congrArg Prod.fst h.symm)) hlast
        · cases h
      | cons k rest =>
        have h1 : t0 ≤ ti := head_le_of_mem hp hmem
        rcases boolAt_bracket hs h1 (not_le.mp hlast) with
          ⟨pre, a, b, post, heq, hat, hbt, hmax, hval⟩
        have hati : a.1 = ti :=
          le_antisymm hat (hmax (ti, qi) hmem (le_refl ti))
        have hamem' : (ti, a.2) ∈ (t0, v0) :: k :: rest := by
          have hamem : a ∈ (t0, v0) :: k :: rest := by
            rw [heq]
            exact List.mem_append_right _ (List.mem_cons_self _ _)
          rwa [← hati, Prod.mk.eta]
        rw [hval]
        exact keyUnique hp hamem' hmem

/-- `takeWhile` cuts a decomposed list right after the pivot. -/
lemma takeWhile_all_append (p : (ℚ × α) → Bool) :
    ∀ (pre : List (ℚ × α)) {a b : ℚ × α} (post : List (ℚ × α)),
    (∀ x ∈ pre, p x = true) → p a = true → p b = false →
    (pre ++ a :: b :: post).takeWhile p = pre ++ [a] := by
  intro pre
  induction pre with
  | nil =>
    intro a b post _ hpa hpb
    simp [List.takeWhile_cons, hpa, hpb]
  | cons x pre ih =>
    intro a b post hpre hpa hpb
    rw [List.cons_append, List.takeWhile_cons, if_pos (hpre x (List.mem_cons_self _ _)),
      ih post (fun y hy => hpre y (List.mem_cons_of_mem _ hy)) hpa hpb, List.cons_append]

/-- Step-policy characterization: for query times at or after the first knot,
`Spline<bool>::at` returns the value of the last knot whose time is ≤ the
query time. -/
lemma boolAt_step {hd : ℚ × Bool} {tl : List (ℚ × Bool)}
    (hs : sortedKeys (hd :: tl) = true) {t : ℚ} (ht : hd.1 ≤ t) :
    ∃ a, ((hd :: tl).takeWhile (fun e => decide (e.1 ≤ t))).getLast? = some a
      ∧ boolAt (hd :: tl) t = a.2 := by
  have hp := sorted_pairwise hs
  by_cases hall : ∀ x ∈ hd :: tl, x.1 ≤ t
  · have htw : (hd :: tl).takeWhile (fun e => decide (e.1 ≤ t)) = hd :: tl :=
      List.takeWhile_eq_self_iff.mpr (fun x hx => by simpa using hall x hx)
    refine ⟨(hd :: tl).getLast (List.cons_ne_nil _ _), ?_, ?_⟩
    · rw [htw, List.getLast?_eq_getLast _ (List.cons_ne_nil _ _)]
    · exact boolAt_hold_last (List.cons_ne_nil _ _) hs (hall _ (List.getLast_mem _))
  · push_neg at hall
    rcases hall with ⟨y, hy, hyt⟩
    obtain ⟨t0, v0⟩ := hd
    cases tl with
    | nil =>
      rcases List.mem_cons.mp hy with h | h
      · exact absurd ht (not_le.mpr (h ▸ hyt))
      · cases h
    | cons k rest =>
      have h2 : t < (((t0, v0) :: k :: rest).getLast (List.cons_ne_nil _ _)).1 :=
        lt_of_lt_of_le hyt (le_getLast _ hp y hy)
      rcases boolAt_bracket hs ht h2 with ⟨pre, a, b, post, heq, hat, hbt, hmax, hval⟩
      refine ⟨a, ?_, hval⟩
      rw [heq, takeWhile_all_append _ pre post ?_ ?_ ?_]
      · exact List.getLast?_concat _
      · intro x hx
        have hpp : (pre ++ a :: b :: post).Pairwise (fun a b => a.1 < b.1) := heq ▸ hp
        have hxa : x.1 < a.1 :=
          (List.pairwise_append.mp hpp).2.2 x hx a (List.mem_cons_self _ _)
        simpa using le_of_lt (lt_of_lt_of_le hxa hat)
      · simpa using hat
      · simpa using not_le.mpr hbt

/-- Spec-modelled generic policy holds the last knot for late query times. -/
lemma genericAt_hold_last (dflt : α) (interior : List (ℚ × α) → ℚ → α)
    {l : List (ℚ × α)} (hne : l ≠ []) (hs : sortedKeys l = true) {t : ℚ}
    (ht : (l.getLast hne).1 ≤ t) :
    genericAt dflt interior l t = (l.getLast hne).2 := by
  cases l with
  | nil => exact absurd rfl hne
  | cons hd tl =>
    obtain ⟨t0, v0⟩ := hd
    cases tl with
    | nil => rfl
    | cons k rest =>
      have hp := sorted_pairwise hs
      have hlast_eq : ((k :: rest).getLast (List.cons_ne_nil _ _))
          = (((t0, v0) :: k :: rest).getLast (List.cons_ne_nil _ _)) :=
        (List.getLast_cons (List.cons_ne_nil _ _)).symm
      have h0 : t0 < t := by
        refine lt_of_lt_of_le (lt_of_lt_of_le
          (List.rel_of_pairwise_cons hp (List.mem_cons_self _ _))
          (le_getLast (List.cons_ne_nil _ _) (List.pairwise_cons.mp hp).2
            k (List.mem_cons_self _ _))) ?_
        rw [hlast_eq]
        exact ht
      rw [genericAt, if_neg (not_le.mpr h0), if_pos (by rw [hlast_eq]; exact ht),
        hlast_eq]

end Spline

/-- One channel of the multi-channel composition: a value type together with
its type-selected evaluation policy (`Spline<T>::at` as resolved by the
specializations). -/
structure Channel : Type 1 where
  carrier : Type
  atFn : List (ℚ × carrier) → ℚ → carrier

namespace Splines

/-- The state of `Splines<T, Ts...>`: a head channel's map plus the tail's
state.  The source requires at least one channel (`Splines<T>` is the base
case, whose operations coincide with the one-channel instance of the cons
case here). -/
def States : List Channel → Type
  | [] => PUnit
  | c :: cs => List (ℚ × c.carrier) × States cs

/-- A positional tuple of per-channel values (`std::tuple<T, Ts...>`). -/
def Vals : List Channel → Type
  | [] => PUnit
  | c :: cs => c.carrier × Vals cs

/-- A freshly constructed multi-channel spline: every channel empty. -/
def empty : (cs : List Channel) → States cs
  | [] => PUnit.unit
  | _ :: cs => ([], empty cs)

/-- `Splines::set` (spline.h:70-73, 196-198): broadcasts the same time to
every channel with the positionally matching value. -/
def setM : (cs : List Channel) → ℚ → Vals cs → States cs → States cs
  | [], _, _, _ => PUnit.unit
  | _ :: cs, t, vs, S => (Spline.set t vs.1 S.1, setM cs t vs.2 S.2)

/-- `Splines::erase` (spline.h:74-77, 199-201). -/
def eraseM : (cs : List Channel) → ℚ → States cs → States cs
  | [], _, _ => PUnit.unit
  | _ :: cs, t, S => (Spline.erase t S.1, eraseM cs t S.2)

/-- `Splines::any` (spline.h:78-80, 202-204): OR across channels. -/
def anyM : (cs : List Channel) → States cs → Bool
  | [], _ => false
  | _ :: cs, S => Spline.anyKnot S.1 || anyM cs S.2

/-- `Splines::has` (spline.h:81-83, 205-207): OR across channels. -/
def hasM : (cs : List Channel) → ℚ → States cs → Bool
  | [], _, _ => false
  | _ :: cs, t, S => Spline.has t S.1 || hasM cs t S.2

/-- `Splines::clear` (spline.h:84-87, 211-213). -/
def clearM : (cs : List Channel) → States cs → States cs
  | [], _ => PUnit.unit
  | _ :: cs, S => (Spline.clear S.1, clearM cs S.2)

/-- `Splines::crop` (spline.h:88-91, 208-210). -/
def cropM : (cs : List Channel) → ℚ → States cs → States cs
  | [], _, _ => PUnit.unit
  | _ :: cs, t, S => (Spline.crop t S.1, cropM cs t S.2)

/-- `Splines::keys` (spline.h:92-97, 214-216): union of all channels' keys. -/
def keysM : (cs : List Channel) → States cs → Finset ℚ
  | [], _ => ∅
  | _ :: cs, S => Spline.keys S.1 ∪ keysM cs S.2

/-- `Splines::at` (spline.h:98-100, 217-219): evaluates every channel at the
same time and recombines the results positionally. -/
def atM : (cs : List Channel) → States cs → ℚ → Vals cs
  | [], _, _ => PUnit.unit
  | c :: cs, S, t => (c.atFn S.1 t, atM cs S.2 t)

/-- Projection: the `i`-th channel's own knot map. -/
def nthState : (cs : List Channel) → States cs → (i : Fin cs.length) → List (ℚ × (cs.get i).carrier)
  | [], _, i => Fin.elim0 i
  | _ :: _, S, ⟨0, _⟩ => S.1
  | _ :: cs, S, ⟨i + 1, h⟩ => nthState cs S.2 ⟨i, Nat.lt_of_succ_lt_succ h⟩

/-- Projection: the `i`-th component of a positional value tuple. -/
def nthVal : (cs : List Channel) → Vals cs → (i : Fin cs.length) → (cs.get i).carrier
  | [], _, i => Fin.elim0 i
  | _ :: _, vs, ⟨0, _⟩ => vs.1
  | _ :: cs, vs, ⟨i + 1, h⟩ => nthVal cs vs.2 ⟨i, Nat.lt_of_succ_lt_succ h⟩

/-- States of a multi-channel spline reachable from the empty spline through
the public mutating interface (`set`, `erase`, `clear`, `crop`). -/
inductive Reach (cs : List Channel) : States cs → Prop
  | init : Reach cs (empty cs)
  | set (t : ℚ) (vs : Vals cs) {S : States cs} : Reach cs S → Reach cs (setM cs t vs S)
  | erase (t : ℚ) {S : States cs} : Reach cs S → Reach cs (eraseM cs t S)
  | clear {S : States cs} : Reach cs S → Reach cs (clearM cs S)
  | crop (t : ℚ) {S : States cs} : Reach cs S → Reach cs (cropM cs t S)

/-- Every channel's map satisfies the `std::map` ordering invariant. -/
def AllSorted : (cs : List Channel) → States cs → Prop
  | [], _ => True
  | _ :: cs, S => Spline.sortedKeys S.1 = true ∧ AllSorted cs S.2

/-- Every channel's key set is exactly `K`. -/
def Uniform : (cs : List Channel) → States cs → Finset ℚ → Prop
  | [], _, _ => True
  | _ :: cs, S, K => Spline.keys S.1 = K ∧ Uniform cs S.2 K

/-- A channel's evaluation policy passes exactly through stored knots. -/
def Exact (c : Channel) : Prop :=
  ∀ (m : List (ℚ × c.carrier)) (t : ℚ) (v : c.carrier),
    Spline.sortedKeys m = true → (t, v) ∈ m → c.atFn m t = v

/-- The evaluation tuple projects to each channel's own evaluation on its
own knot set. -/
lemma nth_atM : ∀ (cs : List Channel) (S : States cs) (t : ℚ) (i : Fin cs.length),
    nthVal cs (atM cs S t) i = (cs.get i).atFn (nthState cs S i) t
  | [], _, _, i => Fin.elim0 i
  | _ :: _, _, _, ⟨0, _⟩ => rfl
  | _ :: cs, S, t, ⟨i + 1, h⟩ => nth_atM cs S.2 t ⟨i, Nat.lt_of_succ_lt_succ h⟩

/-- `setM` writes each channel's own map with the positional value. -/
lemma nth_setM : ∀ (cs : List Channel) (t : ℚ) (vs : Vals cs) (S : States cs)
    (i : Fin cs.length),
    nthState cs (setM cs t vs S) i = Spline.set t (nthVal cs vs i) (nthState cs S i)
  | [], _, _, _, i => Fin.elim0 i
  | _ :: _, _, _, _, ⟨0, _⟩ => rfl
  | _ :: cs, t, vs, S, ⟨i + 1, h⟩ =>
    nth_setM cs t vs.2 S.2 ⟨i, Nat.lt_of_succ_lt_succ h⟩

/-- Channel-wise sortedness projects through `nthState`. -/
lemma nth_sorted : ∀ (cs : List Channel) (S : States cs), AllSorted cs S →
    ∀ i : Fin cs.length, Spline.sortedKeys (nthState cs S i) = true
  | [], _, _, i => Fin.elim0 i
  | _ :: _, _, h, ⟨0, _⟩ => h.1
  | _ :: cs, S, h, ⟨i + 1, hlt⟩ => nth_sorted cs S.2 h.2 ⟨i, Nat.lt_of_succ_lt_succ hlt⟩

/-- Channel-wise key uniformity projects through `nthState`. -/
lemma nth_uniform : ∀ (cs : List Channel) (S : States cs) (K : Finset ℚ),
    Uniform cs S K → ∀ i : Fin cs.length, Spline.keys (nthState cs S i) = K
  | [], _, _, _, i => Fin.elim0 i
  | _ :: _, _, _, h, ⟨0, _⟩ => h.1
  | _ :: cs, S, K, h, ⟨i + 1, hlt⟩ =>
    nth_uniform cs S.2 K h.2 ⟨i, Nat.lt_of_succ_lt_succ hlt⟩

lemma allSorted_empty : ∀ cs, AllSorted cs (empty cs)
  | [] => trivial
  | _ :: cs => ⟨rfl, allSorted_empty cs⟩

lemma uniform_empty : ∀ cs, Uniform cs (empty cs) ∅
  | [] => trivial
  | c :: cs =>
    ⟨show Spline.keys ([] : List (ℚ × c.carrier)) = ∅ by simp [Spline.keys],
      uniform_empty cs⟩

lemma allSorted_setM : ∀ (cs : List Channel) (t : ℚ) (vs : Vals cs) (S : States cs),
    AllSorted cs S → AllSorted cs (setM cs t vs S)
  | [], _, _, _, _ => trivial
  | _ :: cs, t, vs, S, h =>
    ⟨Spline.pairwise_sorted (Spline.set_pairwise (Spline.sorted_pairwise h.1)),
      allSorted_setM cs t vs.2 S.2 h.2⟩

lemma allSorted_eraseM : ∀ (cs : List Channel) (t : ℚ) (S : States cs),
    AllSorted cs S → AllSorted cs (eraseM cs t S)
  | [], _, _, _ => trivial
  | _ :: cs, t, S, h =>
    ⟨Spline.pairwise_sorted
        ((Spline.sorted_pairwise h.1).sublist (List.filter_sublist _)),
      allSorted_eraseM cs t S.2 h.2⟩

lemma allSorted_clearM : ∀ (cs : List Channel) (S : States cs),
    AllSorted cs S → AllSorted cs (clearM cs S)
  | [], _, _ => trivial
  | _ :: cs, S, h => ⟨rfl, allSorted_clearM cs S.2 h.2⟩

lemma allSorted_cropM : ∀ (cs : List Channel) (t : ℚ) (S : States cs),
    AllSorted cs S → AllSorted cs (cropM cs t S)
  | [], _, _, _ => trivial
  | _ :: cs, t, S, h =>
    ⟨Spline.pairwise_sorted
        ((Spline.sorted_pairwise h.1).sublist (List.takeWhile_sublist _)),
      allSorted_cropM cs t S.2 h.2⟩

lemma uniform_setM : ∀ (cs : List Channel) (t : ℚ) (vs : Vals cs) (S : States cs)
    (K : Finset ℚ), Uniform cs S K → Uniform cs (setM cs t vs S) (insert t K)
  | [], _, _, _, _, _ => trivial
  | _ :: cs, t, vs, S, K, h =>
    ⟨show Spline.keys (Spline.set t vs.1 S.1) = insert t K by
        rw [Spline.keys_set, h.1],
      uniform_setM cs t vs.2 S.2 K h.2⟩

lemma uniform_eraseM : ∀ (cs : List Channel) (t : ℚ) (S : States cs)
    (K : Finset ℚ), Uniform cs S K → Uniform cs (eraseM cs t S) (K.erase t)
  | [], _, _, _, _ => trivial
  | _ :: cs, t, S, K, h =>
    ⟨show Spline.keys (Spline.erase t S.1) = K.erase t by
        rw [Spline.keys_erase, h.1],
      uniform_eraseM cs t S.2 K h.2⟩

lemma uniform_clearM : ∀ (cs : List Channel) (S : States cs),
    Uniform cs (clearM cs S) ∅
  | [], _ => trivial
  | c :: cs, S =>
    ⟨show Spline.keys (Spline.clear S.1) = ∅ by simp [Spline.keys, Spline.clear],
      uniform_clearM cs S.2⟩

lemma uniform_cropM : ∀ (cs : List Channel) (t : ℚ) (S : States cs)
    (K : Finset ℚ), AllSorted cs S → Uniform cs S K →
    Uniform cs (cropM cs t S) (K.filter (· < t))
  | [], _, _, _, _, _ => trivial
  | _ :: cs, t, S, K, hs, h =>
    ⟨show Spline.keys (Spline.crop t S.1) = K.filter (· < t) by
        rw [Spline.keys_crop hs.1, h.1],
      uniform_cropM cs t S.2 K hs.2 h.2⟩

/-- Reachability invariant: all channels sorted and sharing one key set. -/
lemma reach_invariant {cs : List Channel} {S : States cs} (h : Reach cs S) :
    AllSorted cs S ∧ ∃ K, Uniform cs S K := by
  induction h with
  | init => exact ⟨allSorted_empty cs, ∅, uniform_empty cs⟩
  | set t vs _ ih =>
    rcases ih with ⟨hs, K, hu⟩
    exact ⟨allSorted_setM _ _ _ _ hs, insert t K, uniform_setM _ _ _ _ _ hu⟩
  | erase t _ ih =>
    rcases ih with ⟨hs, K, hu⟩
    exact ⟨allSorted_eraseM _ _ _ hs, K.erase t, uniform_eraseM _ _ _ _ hu⟩
  | clear _ ih =>
    rcases ih with ⟨hs, K, _⟩
    exact ⟨allSorted_clearM _ _ hs, ∅, uniform_clearM _ _⟩
  | crop t _ ih =>
    rcases ih with ⟨hs, K, hu⟩
    exact ⟨allSorted_cropM _ _ _ hs, K.filter (· < t), uniform_cropM _ _ _ _ hs hu⟩

/-- With at least one channel and uniform key sets, the union `keys()`
collapses to the common key set. -/
lemma keysM_uniform (c : Channel) (cs : List Channel) :
    ∀ (S : States (c :: cs)) (K : Finset ℚ),
    Uniform (c :: cs) S K → keysM (c :: cs) S = K := by
  induction cs generalizing c with
  | nil =>
    intro S K h
    show Spline.keys S.1 ∪ ∅ = K
    rw [Finset.union_empty, h.1]
  | cons c2 cs ih =>
    intro S K h
    show Spline.keys S.1 ∪ keysM (c2 :: cs) S.2 = K
    rw [h.1, ih c2 S.2 K h.2, Finset.union_self]

end Splines

/-- Linear interpolation on ℚ: a concrete interpolation function used to
instantiate the abstract `slerp` parameter in witnesses (any interpolation
returning its first endpoint at parameter 0 qualifies). -/
def lerpQ (a b u : ℚ) : ℚ := a + (b - a) * u

/-- C1: common boundary cases of `at(t)` for every policy (spherical
`Spline<Quat>::at`, step `Spline<bool>::at`, and the spec-modelled generic
policy): zero knots return the type's default/no-value result; exactly one
knot (t0, v0) returns v0 for every query time; every t ≤ the smallest knot
time returns the smallest knot's value (hold-first); every t ≥ the largest
knot time returns the largest knot's value (hold-last).  The spherical
hold-first boundary at the first knot's own time degenerates to `slerp` at
parameter 0, so `slerp` is assumed to return its first endpoint there. -/
theorem c1_boundary_cases (α : Type) (dflt : α) (slerp : α → α → ℚ → α)
    (interior : List (ℚ × α) → ℚ → α) (hslerp : ∀ a b, slerp a b 0 = a) :
    ((∀ t, Spline.quatAt dflt slerp [] t = dflt)
      ∧ (∀ t, Spline.boolAt [] t = false)
      ∧ (∀ t, Spline.genericAt dflt interior [] t = dflt))
    ∧ ((∀ t0 v0 t, Spline.quatAt dflt slerp [(t0, v0)] t = v0)
      ∧ (∀ (t0 : ℚ) (v0 : Bool) (t : ℚ), Spline.boolAt [(t0, v0)] t = v0)
      ∧ (∀ t0 v0 t, Spline.genericAt dflt interior [(t0, v0)] t = v0))
    ∧ ((∀ (hd : ℚ × α) tl, Spline.sortedKeys (hd :: tl) = true →
          ∀ t, t ≤ hd.1 → Spline.quatAt dflt slerp (hd :: tl) t = hd.2)
      ∧ (∀ (hd : ℚ × Bool) tl, Spline.sortedKeys (hd :: tl) = true →
          ∀ t, t ≤ hd.1 → Spline.boolAt (hd :: tl) t = hd.2)
      ∧ (∀ (hd : ℚ × α) tl, Spline.sortedKeys (hd :: tl) = true →
          ∀ t, t ≤ hd.1 → Spline.genericAt dflt interior (hd :: tl) t = hd.2))
    ∧ ((∀ (l : List (ℚ × α)) (hne : l ≠ []), Spline.sortedKeys l = true →
          ∀ t, (l.getLast hne).1 ≤ t →
            Spline.quatAt dflt slerp l t = (l.getLast hne).2)
      ∧ (∀ (l : List (ℚ × Bool)) (hne : l ≠ []), Spline.sortedKeys l = true →
          ∀ t, (l.getLast hne).1 ≤ t → Spline.boolAt l t = (l.getLast hne).2)
      ∧ (∀ (l : List (ℚ × α)) (hne : l ≠ []), Spline.sortedKeys l = true →
          ∀ t, (l.getLast hne).1 ≤ t →
            Spline.genericAt dflt interior l t = (l.getLast hne).2)) := by
  refine ⟨⟨fun t => rfl, fun t => rfl, fun t => rfl⟩,
    ⟨fun t0 v0 t => rfl, fun t0 v0 t => rfl, fun t0 v0 t => rfl⟩,
    ⟨?_, ?_, ?_⟩, ⟨?_, ?_, ?_⟩⟩
  · intro hd tl hs t ht
    exact Spline.quatAt_hold_first dflt slerp hslerp hs ht
  · intro hd tl hs t ht
    exact Spline.boolAt_hold_first hs ht
  · intro hd tl hs t ht
    obtain ⟨t0, v0⟩ := hd
    cases tl with
    | nil => rfl
    | cons k rest => rw [Spline.genericAt, if_pos ht]
  · intro l hne hs t ht
    exact Spline.quatAt_hold_last dflt slerp hne hs ht
  · intro l hne hs t ht
    exact Spline.boolAt_hold_last hne hs ht
  · intro l hne hs t ht
    exact Spline.genericAt_hold_last dflt interior hne hs ht

/-- Witness for C1: the hold-first boundary evaluated on a concrete
two-knot rotation-like spline at the first knot's own time. -/
theorem c1_boundary_cases_witness :
    Spline.quatAt (0 : ℚ) lerpQ [(1, 5), (2, 7)] 1 = 5 :=
  (c1_boundary_cases ℚ 0 lerpQ (fun _ _ => 0)
    (fun a b => by simp [lerpQ])).2.2.1.1 (1, 5) [(2, 7)] (by decide) 1 (by norm_num)

/-- C3: the step spline with knots (1,true), (3,false) evaluates to true at
times 0, 1, 2 and to false at times 3, 10; in general, for query times at or
after the first knot a step spline returns the value of the last knot whose
time is ≤ the query time, so the value changes discretely at knot times. -/
theorem c3_step_spline :
    (Spline.boolAt [(1, true), (3, false)] 0 = true
      ∧ Spline.boolAt [(1, true), (3, false)] 1 = true
      ∧ Spline.boolAt [(1, true), (3, false)] 2 = true
      ∧ Spline.boolAt [(1, true), (3, false)] 3 = false
      ∧ Spline.boolAt [(1, true), (3, false)] 10 = false)
    ∧ ∀ (hd : ℚ × Bool) (tl : List (ℚ × Bool)),
        Spline.sortedKeys (hd :: tl) = true → ∀ t, hd.1 ≤ t →
        ∃ a, ((hd :: tl).takeWhile (fun e => decide (e.1 ≤ t))).getLast? = some a
          ∧ Spline.boolAt (hd :: tl) t = a.2 :=
  ⟨⟨by decide, by decide, by decide, by decide, by decide⟩,
    fun _ _ hs _ ht => Spline.boolAt_step hs ht⟩

/-- Witness for C3: the step characterization applied to the concrete
two-knot spline at an interior time. -/
theorem c3_step_spline_witness :
    ∃ a, (([((1 : ℚ), true), (3, false)]).takeWhile
        (fun e => decide (e.1 ≤ (2 : ℚ)))).getLast? = some a
      ∧ Spline.boolAt [(1, true), (3, false)] 2 = a.2 :=
  c3_step_spline.2 (1, true) [(3, false)] (by decide) 2 (by norm_num)

/-- C2 fails as stated at interior knot times: for the step spline with
knots (0,false), (1,true), (2,false) queried at t = 1 (strictly between the
smallest and largest knot times), `at` returns true, yet the only adjacent
pair satisfying the claimed bracket condition k1.time < t ≤ k2.time is
((0,false),(1,true)), whose step interpolation (the earlier knot's value)
is false. -/
theorem c2_counterexample :
    Spline.boolAt [(0, false), (1, true), (2, false)] 1 = true
    ∧ ¬ ∃ (pre : List (ℚ × Bool)) (a b : ℚ × Bool) (post : List (ℚ × Bool)),
        ([(0, false), (1, true), (2, false)] : List (ℚ × Bool))
            = pre ++ a :: b :: post
        ∧ a.1 < 1 ∧ (1 : ℚ) ≤ b.1
        ∧ Spline.boolAt [(0, false), (1, true), (2, false)] 1 = a.2 := by
  have hv : Spline.boolAt [(0, false), (1, true), (2, false)] 1 = true := by decide
  refine ⟨hv, ?_⟩
  rintro ⟨pre, a, b, post, heq, ha1, hb1, hval⟩
  have hatrue : a.2 = true := hval.symm.trans hv
  rcases pre with _ | ⟨x, pre⟩
  · rw [List.nil_append, List.cons.injEq] at heq
    rw [← heq.1] at hatrue
    cases hatrue
  · rcases pre with _ | ⟨y, pre⟩
    · rw [List.cons_append, List.nil_append, List.cons.injEq, List.cons.injEq] at heq
      rw [← heq.2.1] at ha1
      exact absurd ha1 (by norm_num)
    · rcases pre with _ | ⟨z, pre⟩
      · rw [List.cons_append, List.cons_append, List.nil_append,
          List.cons.injEq, List.cons.injEq, List.cons.injEq] at heq
        exact List.cons_ne_nil _ _ heq.2.2.2.symm
      · have := congrArg List.length heq
        simp [List.length_append] at this

/-- C2 (amended): for ≥2 knots and a query time strictly between the
smallest and largest knot times, `at` locates via ordered search the
adjacent bracketing pair (k1, k2) satisfying k1.time ≤ t < k2.time (the
`upper_bound` semantics, rather than the claimed k1.time < t ≤ k2.time) and
interpolates exactly that pair per the active policy (spherical: slerp at
the local parameter; step: the earlier knot's value). -/
theorem c2_bracketing_amended (α : Type) (dflt : α) (slerp : α → α → ℚ → α) :
    (∀ (t0 : ℚ) (v0 : α) (k : ℚ × α) (rest : List (ℚ × α)),
      Spline.sortedKeys ((t0, v0) :: k :: rest) = true →
      ∀ t, t0 < t →
        t < (((t0, v0) :: k :: rest).getLast (List.cons_ne_nil _ _)).1 →
        ∃ pre a b post, (t0, v0) :: k :: rest = pre ++ a :: b :: post
          ∧ a.1 ≤ t ∧ t < b.1
          ∧ Spline.quatAt dflt slerp ((t0, v0) :: k :: rest) t
              = slerp a.2 b.2 ((t - a.1) / (b.1 - a.1)))
    ∧ (∀ (t0 : ℚ) (v0 : Bool) (k : ℚ × Bool) (rest : List (ℚ × Bool)),
      Spline.sortedKeys ((t0, v0) :: k :: rest) = true →
      ∀ t, t0 < t →
        t < (((t0, v0) :: k :: rest).getLast (List.cons_ne_nil _ _)).1 →
        ∃ pre a b post, (t0, v0) :: k :: rest = pre ++ a :: b :: post
          ∧ a.1 ≤ t ∧ t < b.1
          ∧ Spline.boolAt ((t0, v0) :: k :: rest) t = a.2) := by
  constructor
  · intro t0 v0 k rest hs t h1 h2
    rcases Spline.quatAt_bracket dflt slerp hs (le_of_lt h1) h2 with
      ⟨pre, a, b, post, heq, hat, hbt, _, hval⟩
    exact ⟨pre, a, b, post, heq, hat, hbt, hval⟩
  · intro t0 v0 k rest hs t h1 h2
    rcases Spline.boolAt_bracket hs (le_of_lt h1) h2 with
      ⟨pre, a, b, post, heq, hat, hbt, _, hval⟩
    exact ⟨pre, a, b, post, heq, hat, hbt, hval⟩

/-- Witness for the amended C2: the step spline of the counterexample,
queried at the same interior time t = 1, brackets with k1.time ≤ 1 < k2.time. -/
theorem c2_bracketing_amended_witness :
    ∃ pre a b post,
      ([((0 : ℚ), false), (1, true), (2, false)] : List (ℚ × Bool))
          = pre ++ a :: b :: post
      ∧ a.1 ≤ 1 ∧ (1 : ℚ) < b.1
      ∧ Spline.boolAt [(0, false), (1, true), (2, false)] 1 = a.2 :=
  (c2_bracketing_amended Bool false (fun a _ _ => a)).2 0 false (1, true)
    [(2, false)] (by decide) 1 (by norm_num) (by decide)

/-- C4: for a rotation (spherical-policy) spline with ≥2 knots and an
interior query time, `at` returns the spherical interpolation of the
bracketing pair at the local parameter u = (t − k1.time)/(k2.time − k1.time)
with u ∈ [0,1]; no tangent or cubic blending enters (the result is exactly
one `slerp` of the two bracketing values, for an arbitrary `slerp`). -/
theorem c4_spherical_policy (α : Type) (dflt : α) (slerp : α → α → ℚ → α)
    (t0 : ℚ) (v0 : α) (k : ℚ × α) (rest : List (ℚ × α))
    (hs : Spline.sortedKeys ((t0, v0) :: k :: rest) = true) (t : ℚ)
    (h1 : t0 < t)
    (h2 : t < (((t0, v0) :: k :: rest).getLast (List.cons_ne_nil _ _)).1) :
    ∃ pre a b post, (t0, v0) :: k :: rest = pre ++ a :: b :: post
      ∧ Spline.quatAt dflt slerp ((t0, v0) :: k :: rest) t
          = slerp a.2 b.2 ((t - a.1) / (b.1 - a.1))
      ∧ 0 ≤ (t - a.1) / (b.1 - a.1) ∧ (t - a.1) / (b.1 - a.1) ≤ 1 := by
  rcases Spline.quatAt_bracket dflt slerp hs (le_of_lt h1) h2 with
    ⟨pre, a, b, post, heq, hat, hbt, _, hval⟩
  have hab : (0 : ℚ) < b.1 - a.1 := sub_pos.mpr (lt_of_le_of_lt hat hbt)
  refine ⟨pre, a, b, post, heq, hval, ?_, ?_⟩
  · exact div_nonneg (sub_nonneg.mpr hat) (le_of_lt hab)
  · rw [div_le_one hab]
    exact sub_le_sub_right (le_of_lt hbt) _

/-- Witness for C4 on a concrete two-knot spline over ℚ with `lerpQ`. -/
theorem c4_spherical_policy_witness :
    ∃ pre a b post,
      ([((0 : ℚ), (2 : ℚ)), (4, 10)] : List (ℚ × ℚ)) = pre ++ a :: b :: post
      ∧ Spline.quatAt (0 : ℚ) lerpQ [(0, 2), (4, 10)] 1
          = lerpQ a.2 b.2 ((1 - a.1) / (b.1 - a.1))
      ∧ 0 ≤ ((1 : ℚ) - a.1) / (b.1 - a.1) ∧ ((1 : ℚ) - a.1) / (b.1 - a.1) ≤ 1 :=
  c4_spherical_policy ℚ 0 lerpQ 0 2 (4, 10) [] (by decide) 1 (by norm_num)
    (by norm_num [List.getLast])

/-- C5: the multi-channel `at(time)` evaluates every channel's own `at`
independently on that channel's own knot set and returns the positional
tuple of results; consequently `set(t, v0, ..., vN-1)` followed by `at(t)`
returns exactly the written tuple whenever every channel's policy passes
through stored knots (which is the stated proviso of the claim). -/
theorem c5_multichannel (cs : List Channel) (S : Splines.States cs) (t : ℚ) :
    (∀ i : Fin cs.length,
      Splines.nthVal cs (Splines.atM cs S t) i
        = (cs.get i).atFn (Splines.nthState cs S i) t)
    ∧ (∀ vs : Splines.Vals cs, Splines.AllSorted cs S →
        (∀ c ∈ cs, Splines.Exact c) →
        ∀ i : Fin cs.length,
          Splines.nthVal cs (Splines.atM cs (Splines.setM cs t vs S) t) i
            = Splines.nthVal cs vs i) := by
  constructor
  · exact fun i => Splines.nth_atM cs S t i
  · intro vs hsort hexact i
    rw [Splines.nth_atM, Splines.nth_setM]
    have hs' : Spline.sortedKeys
        (Spline.set t (Splines.nthVal cs vs i) (Splines.nthState cs S i)) = true :=
      Spline.pairwise_sorted
        (Spline.set_pairwise (Spline.sorted_pairwise (Splines.nth_sorted cs S hsort i)))
    exact hexact (cs.get i) (cs.get_mem i.1 i.2) _ t _ hs' (Spline.mem_set_self t _ _)

/-- A concrete step-policy channel used in multi-channel witnesses. -/
def boolChan : Channel := ⟨Bool, Spline.boolAt⟩

/-- Witness for C5: a two-channel step spline, `set(2, true, false)` then
`at(2)`, first component. -/
theorem c5_multichannel_witness :
    Splines.nthVal [boolChan, boolChan]
      (Splines.atM [boolChan, boolChan]
        (Splines.setM [boolChan, boolChan] 2 (true, false, PUnit.unit)
          (Splines.empty [boolChan, boolChan])) 2) ⟨0, by norm_num⟩
      = true := by
  have hex : ∀ c ∈ [boolChan, boolChan], Splines.Exact c := by
    intro c hc
    have hcb : c = boolChan := by
      rcases List.mem_cons.mp hc with h | h
      · exact h
      · rcases List.mem_cons.mp h with h | h
        · exact h
        · cases h
    subst hcb
    exact fun m t v hs hmem => Spline.boolAt_knot hs hmem
  exact (c5_multichannel [boolChan, boolChan]
    (Splines.empty [boolChan, boolChan]) 2).2 (true, false, PUnit.unit)
    (Splines.allSorted_empty _) hex ⟨0, by norm_num⟩

/-- C6: through the public mutating interface every operation broadcasts the
same time to every channel, so from the empty state every reachable
multi-channel state has identical per-channel key sets, and `keys()` (the
union) equals each individual channel's key set. -/
theorem c6_uniform_keys (cs : List Channel) (S : Splines.States cs)
    (h : Splines.Reach cs S) (i : Fin cs.length) :
    Spline.keys (Splines.nthState cs S i) = Splines.keysM cs S := by
  rcases Splines.reach_invariant h with ⟨_, K, hu⟩
  cases cs with
  | nil => exact Fin.elim0 i
  | cons c cs' =>
    rw [Splines.keysM_uniform c cs' S K hu]
    exact Splines.nth_uniform _ S K hu i

/-- Witness for C6: after one broadcast `set` on a two-channel spline, the
first channel's keys equal the union `keys()`. -/
theorem c6_uniform_keys_witness :
    Spline.keys (Splines.nthState [boolChan, boolChan]
        (Splines.setM [boolChan, boolChan] 1 (true, false, PUnit.unit)
          (Splines.empty [boolChan, boolChan])) ⟨0, by norm_num⟩)
      = Splines.keysM [boolChan, boolChan]
        (Splines.setM [boolChan, boolChan] 1 (true, false, PUnit.unit)
          (Splines.empty [boolChan, boolChan])) :=
  c6_uniform_keys [boolChan, boolChan] _
    (Splines.Reach.set 1 (true, false, PUnit.unit) Splines.Reach.init)
    ⟨0, by norm_num⟩

/-- C7: `crop(t)` removes exactly the knots with time ≥ t: the keys
afterwards are the prior keys strictly less than t; cropping at or below
the smallest key empties the spline; cropping strictly above the largest
key is a no-op. -/
theorem c7_crop (α : Type) (t : ℚ) :
    (∀ l : List (ℚ × α), Spline.sortedKeys l = true →
      Spline.keys (Spline.crop t l) = (Spline.keys l).filter (· < t))
    ∧ (∀ (hd : ℚ × α) (tl : List (ℚ × α)), t ≤ hd.1 →
        Spline.crop t (hd :: tl) = [])
    ∧ (∀ (l : List (ℚ × α)) (hne : l ≠ []), Spline.sortedKeys l = true →
        (l.getLast hne).1 < t → Spline.crop t l = l) :=
  ⟨fun _ hs => Spline.keys_crop hs,
    fun _ _ ht => Spline.crop_nil_of_le_head ht,
    fun _ hne hs hlt => Spline.crop_self_of_getLast_lt hne hs hlt⟩

/-- Witness for C7 on a concrete two-knot spline. -/
theorem c7_crop_witness :
    Spline.keys (Spline.crop 2 [((1 : ℚ), (10 : ℚ)), (3, 30)])
      = (Spline.keys [((1 : ℚ), (10 : ℚ)), (3, 30)]).filter (· < 2) :=
  (c7_crop ℚ 2).1 [(1, 10), (3, 30)] (by decide)

/-- C8: `erase(t)` removes the knot at exactly t when present (keys lose
exactly t, values at other times are untouched) and is a silent no-op when
no knot exists at exactly t. -/
theorem c8_erase_exact (α : Type) (t : ℚ) :
    (∀ l : List (ℚ × α), Spline.has t l = false → Spline.erase t l = l)
    ∧ (∀ l : List (ℚ × α), Spline.has t (Spline.erase t l) = false)
    ∧ (∀ l : List (ℚ × α), Spline.keys (Spline.erase t l) = (Spline.keys l).erase t)
    ∧ (∀ (l : List (ℚ × α)) (s : ℚ), s ≠ t →
        Spline.valueAt s (Spline.erase t l) = Spline.valueAt s l) :=
  ⟨fun _ h => Spline.erase_of_not_has h,
    fun l => Spline.has_erase t l,
    fun l => Spline.keys_erase t l,
    fun l s hst => Spline.valueAt_erase_ne hst l⟩

/-- Witness for C8: erasing a time with no knot leaves the spline unchanged. -/
theorem c8_erase_exact_witness :
    Spline.erase 5 [((1 : ℚ), (10 : ℚ)), (3, 30)] = [(1, 10), (3, 30)] :=
  (c8_erase_exact ℚ 5).1 [(1, 10), (3, 30)] (by decide)

/-- C9: `set(t, v1)` then `set(t, v2)` leaves `has(t)` true, the stored
value at t observably v2 (last-write-wins), and exactly one knot at time t
(key uniqueness preserved). -/
theorem c9_overwrite (α : Type) (t : ℚ) (v1 v2 : α) (l : List (ℚ × α))
    (hs : Spline.sortedKeys l = true) :
    Spline.has t (Spline.set t v2 (Spline.set t v1 l)) = true
    ∧ Spline.valueAt t (Spline.set t v2 (Spline.set t v1 l)) = some v2
    ∧ ((Spline.set t v2 (Spline.set t v1 l)).map Prod.fst).count t = 1 := by
  rw [Spline.set_set]
  refine ⟨Spline.has_iff.mpr ⟨(t, v2), Spline.mem_set_self t v2 l, rfl⟩,
    Spline.valueAt_set t v2 l, ?_⟩
  have hp : (Spline.set t v2 l).Pairwise (fun a b => a.1 < b.1) :=
    Spline.set_pairwise (Spline.sorted_pairwise hs)
  have hnd : ((Spline.set t v2 l).map Prod.fst).Nodup :=
    (hp.map Prod.fst (fun a b h => h)).imp ne_of_lt
  have hmem : t ∈ (Spline.set t v2 l).map Prod.fst :=
    List.mem_map_of_mem Prod.fst (Spline.mem_set_self t v2 l)
  exact List.count_eq_one_of_mem hnd hmem

/-- Witness for C9 on a concrete spline. -/
theorem c9_overwrite_witness :
    Spline.has 2 (Spline.set 2 (7 : ℚ) (Spline.set 2 5 [((1 : ℚ), (0 : ℚ))])) = true
    ∧ Spline.valueAt 2 (Spline.set 2 (7 : ℚ)
        (Spline.set 2 5 [((1 : ℚ), (0 : ℚ))])) = some 7
    ∧ ((Spline.set 2 (7 : ℚ)
        (Spline.set 2 5 [((1 : ℚ), (0 : ℚ))])).map Prod.fst).count 2 = 1 :=
  c9_overwrite ℚ 2 5 7 [(1, 0)] (by decide)

/-- C10: a rotation (spherical-policy) spline with ≥2 knots passes exactly
through every stored knot: `at(ti) = qi` for each stored knot (ti, qi) —
through hold-last at the largest knot time, and through a bracket starting
at ti with local parameter u = 0 elsewhere, assuming `slerp` at parameter 0
returns its first argument (the claim's own proviso). -/
theorem c10_knot_passthrough (α : Type) (dflt : α) (slerp : α → α → ℚ → α)
    (hslerp : ∀ a b, slerp a b 0 = a) (l : List (ℚ × α))
    (hs : Spline.sortedKeys l = true) (hlen : 2 ≤ l.length)
    (ti : ℚ) (qi : α) (hmem : (ti, qi) ∈ l) :
    Spline.quatAt dflt slerp l ti = qi :=
  Spline.quatAt_knot dflt slerp hslerp hs hmem

/-- Witness for C10 on a concrete two-knot spline over ℚ with `lerpQ`. -/
theorem c10_knot_passthrough_witness :
    Spline.quatAt (0 : ℚ) lerpQ [(0, 2), (4, 10)] 0 = 2 :=
  c10_knot_passthrough ℚ 0 lerpQ (fun a b => by simp [lerpQ]) [(0, 2), (4, 10)]
    (by decide) (le_refl 2) 0 2 (List.mem_cons_self _ _)
